import Mathlib

set_option autoImplicit false

/-!
# Verification of the `ronde` history retention and aggregation engine

A shallow embedding of `ronde_lib/src/history.rs` (together with the small
parts of `runner.rs`, `summary.rs` and `config.rs` it depends on), and proofs
of the specification claims about it.

Timestamps (`chrono::DateTime<Utc>`) are embedded as seconds since the Unix
epoch (`Int`); calendar dates (`chrono::NaiveDate`) as days since the epoch
(`Int`, day 0 = 1970-01-01, a Thursday).  Calendar accessors use floor
division/modulus (`Int.fdiv` / `Int.fmod`), exactly as chrono computes the
proleptic-Gregorian calendar fields of an instant; duration accessors
(`TimeDelta::num_hours`, `num_days`) use Rust's truncating division
(`Int.div`), matching `num_seconds() / 3600` on `i64`.
-/

namespace Ronde

/-- Seconds per hour. -/
def secPerHour : Int := 3600

/-- Seconds per day. -/
def secPerDay : Int := 86400

/-- Embeds `chrono`'s `DateTime::date_naive` for a UTC instant: the calendar day the
instant falls on, as days since the epoch (floor division). -/
def dateOf (ts : Int) : Int := Int.fdiv ts secPerDay

/-- Second-of-day of an instant (`0 ≤ _ < 86400`), as a `Nat`. -/
def secondOfDay (ts : Int) : Nat := (Int.fmod ts secPerDay).toNat

/-- Embeds `chrono`'s `Timelike::minute`: minute-of-hour of the instant. -/
def minuteOf (ts : Int) : Nat := secondOfDay ts / 60 % 60

/-- Embeds `chrono`'s `Timelike::hour`: hour-of-day of the instant. -/
def hourOf (ts : Int) : Nat := secondOfDay ts / 3600

/-- Embeds `chrono`'s `Weekday::num_days_from_monday` of a calendar day given as days
since the epoch.  Day 0 (1970-01-01) was a Thursday, index 3 from Monday. -/
def weekdayFromMonday (date : Int) : Nat := (Int.emod (date + 3) 7).toNat

/-- Embeds `chrono`'s `TimeDelta::num_hours` on a whole-second duration: truncating
(T-)division by 3600, as on Rust's `i64`. -/
def numHours (delta : Int) : Int := Int.tdiv delta secPerHour

/-- Embeds `chrono`'s `NaiveDate - TimeDelta`: subtracts `num_days()` whole days,
the fractional day being truncated towards zero. -/
def dateSubDelta (date : Int) (deltaSeconds : Int) : Int :=
  date - Int.tdiv deltaSeconds secPerDay

/-- Embeds `runner.rs` `CommandOutput`: captured output of a successful run. -/
structure CommandOutput where
  exit : Int
  stdout : String
  stderr : String
deriving DecidableEq, Repr

/-- Embeds `history.rs` `HistoryItemError`: a recorded probe failure. -/
inductive HistoryItemError where
  | Timeout (timeout : Nat)
  | CommandError (exit : Int) (stdout : String) (stderr : String)
  | Other (message : String)
deriving DecidableEq, Repr

deriving instance DecidableEq for Except

/-- Embeds `history.rs` `TimeTag`: the retention tier an entry belongs to. -/
inductive TimeTag where
  | Day (d : Nat)
  | Hour (h : Nat)
  | Minute (m : Nat)
deriving DecidableEq, Repr

/-- Embeds `history.rs` `CommandHistoryEntry`: one timestamped recorded outcome. -/
structure CommandHistoryEntry where
  result : Except HistoryItemError CommandOutput
  timestamp : Int
  tag : TimeTag
  command : String
deriving DecidableEq, Repr

/-- Rust `Result::is_err` on an embedded result. -/
def resultIsErr (r : Except HistoryItemError CommandOutput) : Bool :=
  match r with
  | .error _ => true
  | .ok _ => false

/-- Rust `Result::is_ok` on an embedded result. -/
def resultIsOk (r : Except HistoryItemError CommandOutput) : Bool :=
  match r with
  | .error _ => false
  | .ok _ => true

namespace CommandHistoryEntry

/-- Embeds `CommandHistoryEntry::merge_in`: fold a newer entry of the same bucket
into `self` (the kept, older entry).  If the newer entry is an error, adopt
its error and timestamp; if only the older one is an error, keep it; if both
are successes, the newer entry replaces the older wholesale. -/
def merge_in (self newer : CommandHistoryEntry) : CommandHistoryEntry :=
  match newer.result with
  | .error e => { self with result := .error e, timestamp := newer.timestamp }
  | .ok _ =>
    match self.result with
    | .error _ => self
    | .ok _ => newer

end CommandHistoryEntry

namespace CommandHistory

open CommandHistoryEntry

/-- The guard of `recreate_tags`' `retain_mut` closure: retag one entry
relative to `latest` (the last entry's timestamp) and `lastDay` (the removal
cutoff date), returning `none` when the entry is dropped. -/
def retagEntry (latest lastDay : Int) (e : CommandHistoryEntry) :
    Option CommandHistoryEntry :=
  let delta := latest - e.timestamp
  if numHours delta < 1 then
    some { e with tag := .Minute (minuteOf e.timestamp / 5 * 5) }
  else if numHours delta < 1 + 24 then
    some { e with tag := .Hour (hourOf e.timestamp) }
  else
    let date := dateOf e.timestamp
    if date < lastDay then
      none
    else
      some { e with tag := .Day (weekdayFromMonday date) }

/-- Embeds `CommandHistory::recreate_tags` on the entry list: using the last entry's
timestamp as reference "now", retag every entry and drop the ones whose
calendar date precedes `latest.date_naive() - 25h - 7d`. -/
def recreate_tags (entries : List CommandHistoryEntry) :
    List CommandHistoryEntry :=
  match entries.getLast? with
  | none => entries
  | some last =>
    let latest := last.timestamp
    let lastDay := dateSubDelta (dateSubDelta (dateOf latest) (25 * secPerHour))
      (7 * secPerDay)
    entries.filterMap (retagEntry latest lastDay)

/-- The tag comparison performed by `rotate`'s `dedup_by` closure: same
constructor carrying the same value. -/
def sameBucket (l r : TimeTag) : Bool :=
  match l, r with
  | .Day a, .Day b => b == a
  | .Hour a, .Hour b => b == a
  | .Minute a, .Minute b => b == a
  | _, _ => false

/-- The linear pass of `Vec::dedup_by` as used by `rotate`: `acc` is the last
kept entry; each following entry with the same tag is merged into it (and
dropped), a differing tag emits `acc` and starts a new bucket. -/
def rotateAux (acc : CommandHistoryEntry) :
    List CommandHistoryEntry → List CommandHistoryEntry
  | [] => [acc]
  | e :: rest =>
    if sameBucket e.tag acc.tag then
      rotateAux (merge_in acc e) rest
    else
      acc :: rotateAux e rest

/-- Embeds `CommandHistory::rotate` on the entry list: collapse each maximal run of
adjacent entries sharing a tag into its accumulated representative. -/
def rotate : List CommandHistoryEntry → List CommandHistoryEntry
  | [] => []
  | e :: rest => rotateAux e rest

/-- Embeds `CommandHistory::is_new_error`: the last entry is an error and the
previous one, if any, is not. -/
def is_new_error (entries : List CommandHistoryEntry) : Bool :=
  match entries.getLast? with
  | some last =>
    if resultIsErr last.result then
      if entries.length > 1 then
        match entries[entries.length - 2]? with
        | some previous => resultIsOk previous.result
        | none => false
      else
        true
    else
      false
  | none => false

/-- Embeds `CommandHistory::is_back_from_failure`: the last entry is a success and
the previous one, if any, is an error. -/
def is_back_from_failure (entries : List CommandHistoryEntry) : Bool :=
  match entries.getLast? with
  | some last =>
    if resultIsOk last.result && entries.length > 1 then
      match entries[entries.length - 2]? with
      | some previous => resultIsErr previous.result
      | none => false
    else
      false
  | none => false

end CommandHistory

/-- Embeds `history.rs` `CommandHistory`: one probe's named, ordered entry log. -/
structure CommandHistoryS where
  name : String
  entries : List CommandHistoryEntry
deriving DecidableEq, Repr

/-- Embeds `config.rs` `CommandConfig` (the `Timeout` newtype is inlined as the
seconds value it wraps; `env`'s `HashMap` is embedded as an association
list). -/
structure CommandConfig where
  name : String
  timeout : Nat
  run : String
  uid : Option Nat
  gid : Option Nat
  clear_env : Bool
  env : Option (List (String × String))
  cwd : Option String
deriving DecidableEq, Repr

/-- Embeds `runner.rs` `CommandError`.  `TimedOut`'s `Elapsed` payload carries no
data of interest; `Command`'s `std::io::Error` is embedded as its display
string; `ReturnedError`'s `std::process::Output` is embedded as its optional
exit code and lossily decoded stdout/stderr. -/
inductive CommandError where
  | TimedOut
  | Command (ioError : String)
  | ReturnedError (code : Option Int) (stdout : String) (stderr : String)
deriving DecidableEq, Repr

/-- Embeds `runner.rs` `CommandResult`: configuration plus outcome of one probe. -/
structure CommandResult where
  config : CommandConfig
  result : Except CommandError CommandOutput
deriving DecidableEq, Repr

/-- Embeds `summary.rs` `Summary` (counters are `u32` in the source; probe counts
stay far below `2^32`, so they are embedded as `Nat`). -/
structure Summary where
  nb_ok : Nat
  nb_err : Nat
deriving DecidableEq, Repr

/-- Embeds `history.rs` `History`: the store of every probe's history. -/
structure History where
  commands : List CommandHistoryS
deriving DecidableEq, Repr

namespace History

/-- Embeds `History::recreate_tags`: retag every probe's log. -/
def recreate_tags (h : History) : History :=
  { commands := h.commands.map fun c =>
      { c with entries := CommandHistory.recreate_tags c.entries } }

/-- Embeds `History::rotate`: rotate every probe's log. -/
def rotate (h : History) : History :=
  { commands := h.commands.map fun c =>
      { c with entries := CommandHistory.rotate c.entries } }

/-- Embeds `History::purge_from_results`: retain only the probes named by the
current results. -/
def purge_from_results (h : History) (results : List CommandResult) :
    History :=
  { commands :=
      h.commands.filter fun c => results.any fun r => r.config.name == c.name }

/-- The entry `History::update` builds for one result: the outcome translated
into a `HistoryItemError` on failure, timestamped `now`, with the placeholder
tag `Minute 0` and the configured command text. -/
def entryOfResult (now : Int) (result : CommandResult) : CommandHistoryEntry :=
  { result :=
      match result.result with
      | .ok output => .ok output
      | .error (.ReturnedError code out err) =>
        .error (.CommandError (code.getD (-1)) out err)
      | .error .TimedOut => .error (.Timeout result.config.timeout)
      | .error (.Command m) => .error (.Other ("Command error: " ++ m))
    timestamp := now
    tag := .Minute 0
    command := result.config.run }

/-- The per-result body of `History::update`'s loop: push the new entry onto
the first probe history with a matching name, or append a fresh one-entry
probe history at the end. -/
def pushEntry (name : String) (entry : CommandHistoryEntry) :
    List CommandHistoryS → List CommandHistoryS
  | [] => [{ name := name, entries := [entry] }]
  | c :: cs =>
    if c.name = name then
      { c with entries := c.entries ++ [entry] } :: cs
    else
      c :: pushEntry name entry cs

/-- Embeds `History::update`: append one entry per result, each timestamped with the
current clock value `now` (`chrono::Utc::now()` in the source). -/
def update (now : Int) (h : History) (results : List CommandResult) :
    History :=
  results.foldl
    (fun h r => { commands := pushEntry r.config.name (entryOfResult now r) h.commands })
    h

/-- The body of `History::get_summary_from_latest`'s loop: bump `nb_ok` or
`nb_err` according to the probe's last entry, skipping empty logs. -/
def summaryStep (s : Summary) (c : CommandHistoryS) : Summary :=
  match c.entries.getLast? with
  | some entry =>
    match entry.result with
    | .ok _ => { s with nb_ok := s.nb_ok + 1 }
    | .error _ => { s with nb_err := s.nb_err + 1 }
  | none => s

/-- Embeds `History::get_summary_from_latest`: count each probe by its last entry. -/
def get_summary_from_latest (h : History) : Summary :=
  h.commands.foldl summaryStep { nb_ok := 0, nb_err := 0 }

end History

end Ronde

namespace Ronde

/-- A successful entry, as the repo's unit tests build them. -/
def okEntryAt (ts : Int) : CommandHistoryEntry :=
  { result := .ok ⟨0, "", ""⟩, timestamp := ts, tag := .Minute 0, command := "" }

/-- A failing entry, as the repo's unit tests build them. -/
def errEntryAt (ts : Int) : CommandHistoryEntry :=
  { result := .error (.CommandError (-1) "" ""), timestamp := ts,
    tag := .Minute 0, command := "" }

/-- Epoch seconds of "Mon, 29 Jan 2024 23:41:22 GMT" as seconds since the epoch. -/
def tsJan29 : Int := 1706571682

/-- Epoch seconds of "Tue, 30 Jan 2024 01:41:22 GMT" as seconds since the epoch. -/
def tsJan30 : Int := 1706578882

/-- Epoch seconds of "Wed, 07 Feb 2024 19:49:43 GMT" as seconds since the epoch. -/
def tsFeb7 : Int := 1707335383

/-- A successful run at timestamp 10, command text "probe a". -/
def runOldOk : CommandHistoryEntry :=
  { result := .ok ⟨0, "out a", "err a"⟩, timestamp := 10, tag := .Minute 0,
    command := "probe a" }

/-- A failing run at timestamp 20, command text "probe b". -/
def runMidErr : CommandHistoryEntry :=
  { result := .error (.CommandError 1 "out b" "err b"), timestamp := 20,
    tag := .Minute 0, command := "probe b" }

/-- A successful run at timestamp 30, command text "probe c". -/
def runNewOk : CommandHistoryEntry :=
  { result := .ok ⟨0, "out c", "err c"⟩, timestamp := 30, tag := .Minute 0,
    command := "probe c" }

/-- A failing run at timestamp 40, command text "probe d". -/
def runErrA : CommandHistoryEntry :=
  { result := .error (.Timeout 5), timestamp := 40, tag := .Hour 3,
    command := "probe d" }

/-- A failing run at timestamp 50, command text "probe e". -/
def runErrB : CommandHistoryEntry :=
  { result := .error (.Other "boom"), timestamp := 50, tag := .Hour 3,
    command := "probe e" }

/-- A command configuration with the given name and command text. -/
def cfgNamed (n r : String) : CommandConfig :=
  { name := n, timeout := 10, run := r, uid := none, gid := none,
    clear_env := false, env := none, cwd := none }

/-- Probe history named "A". -/
def histA : CommandHistoryS := { name := "A", entries := [runOldOk] }

/-- Probe history named "B". -/
def histB : CommandHistoryS := { name := "B", entries := [runMidErr, runNewOk] }

/-- Probe history named "C". -/
def histC : CommandHistoryS := { name := "C", entries := [runErrA] }

/-- Probe history named "D". -/
def histD : CommandHistoryS := { name := "D", entries := [runErrB] }

/-- A current result for probe "B". -/
def resB : CommandResult :=
  { config := cfgNamed "B" "echo b", result := .ok ⟨0, "", ""⟩ }

/-- A current result for probe "C". -/
def resC : CommandResult :=
  { config := cfgNamed "C" "echo c", result := .error .TimedOut }

/-- A probe's latest recorded outcome is a success. -/
def lastEntryIsOk (c : CommandHistoryS) : Bool :=
  (c.entries.getLast?).elim false fun e => resultIsOk e.result

/-- A probe's latest recorded outcome is a failure. -/
def lastEntryIsErr (c : CommandHistoryS) : Bool :=
  (c.entries.getLast?).elim false fun e => resultIsErr e.result

/-- Modelled from the spec: the `RetentionTagger` algorithm of §4.1, written
with the spec's own age thresholds and 8-day date cutoff (for refinement
comparison with the source-derived `retagEntry`/`recreate_tags`): age under
one hour gives the 5-minute bucket of the entry's own minute-of-hour; age in
[1h, 25h) gives the entry's own hour-of-day bucket; otherwise the entry is
dropped when its calendar date is before the latest date minus 8 days, and
kept with its weekday bucket (Monday = 0) when not. -/
def retagSpec (latest : Int) (e : CommandHistoryEntry) :
    Option CommandHistoryEntry :=
  if latest - e.timestamp < secPerHour then
    some { e with tag := .Minute (minuteOf e.timestamp / 5 * 5) }
  else if latest - e.timestamp < 25 * secPerHour then
    some { e with tag := .Hour (hourOf e.timestamp) }
  else if dateOf e.timestamp < dateOf latest - 8 then
    none
  else
    some { e with tag := .Day (weekdayFromMonday (dateOf e.timestamp)) }

/-- Total number of entries across every probe of the store. -/
def totalEntries (h : History) : Nat :=
  (h.commands.map fun c => c.entries.length).sum

end Ronde

namespace Ronde

open CommandHistoryEntry CommandHistory

/-! ## Basic facts about results, `merge_in` and `rotate` -/

theorem resultIsErr_iff (r : Except HistoryItemError CommandOutput) :
    resultIsErr r = true ↔ ∃ e, r = .error e := by
  cases r <;> simp [resultIsErr]

theorem resultIsOk_iff (r : Except HistoryItemError CommandOutput) :
    resultIsOk r = true ↔ ∃ o, r = .ok o := by
  cases r <;> simp [resultIsOk]

theorem sameBucket_iff (x y : TimeTag) : sameBucket x y = true ↔ x = y := by
  cases x <;> cases y <;> simp [sameBucket] <;> exact eq_comm

theorem sameBucket_eq_decide (x y : TimeTag) :
    sameBucket x y = decide (x = y) := by
  rw [Bool.eq_iff_iff, sameBucket_iff, decide_eq_true_eq]

theorem merge_in_of_err {b : CommandHistoryEntry} (a : CommandHistoryEntry)
    {e : HistoryItemError} (h : b.result = .error e) :
    merge_in a b = { a with result := .error e, timestamp := b.timestamp } := by
  simp [merge_in, h]

theorem merge_in_of_ok_err {a b : CommandHistoryEntry} {o : CommandOutput}
    {e : HistoryItemError} (hb : b.result = .ok o) (ha : a.result = .error e) :
    merge_in a b = a := by
  simp [merge_in, hb, ha]

theorem merge_in_of_ok_ok {a b : CommandHistoryEntry} {o o' : CommandOutput}
    (hb : b.result = .ok o) (ha : a.result = .ok o') : merge_in a b = b := by
  simp [merge_in, hb, ha]

theorem merge_in_tag (a b : CommandHistoryEntry) :
    (merge_in a b).tag = a.tag ∨ (merge_in a b).tag = b.tag := by
  cases hb : b.result with
  | error e => left; rw [merge_in_of_err a hb]
  | ok o =>
    cases ha : a.result with
    | error e => left; rw [merge_in_of_ok_err hb ha]
    | ok o' => right; rw [merge_in_of_ok_ok hb ha]

theorem merge_in_tag_of_eq {a b : CommandHistoryEntry} (h : a.tag = b.tag) :
    (merge_in a b).tag = a.tag := by
  rcases merge_in_tag a b with h' | h' <;> simp [h', h]

theorem merge_in_timestamp (a b : CommandHistoryEntry) :
    (merge_in a b).timestamp = a.timestamp ∨
      (merge_in a b).timestamp = b.timestamp := by
  cases hb : b.result with
  | error e => right; rw [merge_in_of_err a hb]
  | ok o =>
    cases ha : a.result with
    | error e => left; rw [merge_in_of_ok_err hb ha]
    | ok o' => right; rw [merge_in_of_ok_ok hb ha]

theorem rotateAux_cons_eq {acc e : CommandHistoryEntry}
    {rest : List CommandHistoryEntry} (h : e.tag = acc.tag) :
    rotateAux acc (e :: rest) = rotateAux (merge_in acc e) rest := by
  simp [rotateAux, sameBucket_eq_decide, h]

theorem rotateAux_cons_ne {acc e : CommandHistoryEntry}
    {rest : List CommandHistoryEntry} (h : e.tag ≠ acc.tag) :
    rotateAux acc (e :: rest) = acc :: rotateAux e rest := by
  simp [rotateAux, sameBucket_eq_decide, h]

theorem rotateAux_length (l : List CommandHistoryEntry)
    (acc : CommandHistoryEntry) : (rotateAux acc l).length ≤ l.length + 1 := by
  induction l generalizing acc with
  | nil => simp [rotateAux]
  | cons e rest ih =>
    by_cases h : e.tag = acc.tag
    · rw [rotateAux_cons_eq h]
      exact le_trans (ih _) (by simp)
    · rw [rotateAux_cons_ne h]
      simpa using ih e

theorem rotateAux_shape (l : List CommandHistoryEntry)
    (acc : CommandHistoryEntry) :
    ∃ hd tl, rotateAux acc l = hd :: tl ∧ hd.tag = acc.tag := by
  induction l generalizing acc with
  | nil => exact ⟨acc, [], rfl, rfl⟩
  | cons e rest ih =>
    by_cases h : e.tag = acc.tag
    · rw [rotateAux_cons_eq h]
      obtain ⟨hd, tl, heq, htag⟩ := ih (merge_in acc e)
      exact ⟨hd, tl, heq, htag.trans (merge_in_tag_of_eq h.symm)⟩
    · exact ⟨acc, rotateAux e rest, rotateAux_cons_ne h, rfl⟩

theorem rotateAux_chain' (l : List CommandHistoryEntry)
    (acc : CommandHistoryEntry) :
    List.Chain' (fun x y => x.tag ≠ y.tag) (rotateAux acc l) := by
  induction l generalizing acc with
  | nil => simp [rotateAux]
  | cons e rest ih =>
    by_cases h : e.tag = acc.tag
    · rw [rotateAux_cons_eq h]
      exact ih _
    · rw [rotateAux_cons_ne h]
      obtain ⟨hd, tl, heq, htag⟩ := rotateAux_shape rest e
      rw [heq]
      rw [List.chain'_cons]
      refine ⟨?_, heq ▸ ih e⟩
      rw [htag]
      exact fun hc => h hc.symm

/-! ## Claim C4 -/

/-- Claim C4: For every entry sequence, `rotate` never increases the number of
entries, and in its output no two adjacent entries carry an identical tag. -/
theorem rotate_length_le_and_adjacent_tags_ne (l : List CommandHistoryEntry) :
    (rotate l).length ≤ l.length ∧
      List.Chain' (fun a b => a.tag ≠ b.tag) (rotate l) := by
  cases l with
  | nil => simp [rotate]
  | cons e rest =>
    constructor
    · simpa [rotate] using rotateAux_length rest e
    · exact rotateAux_chain' rest e

/-! ## Claim C3 -/

/-- Claim C3, counterexample: Collapsing the run `[success, failure, success]`
does not yield an entry equal to the failure entry, and collapsing
`[failure_A, failure_B]` does not yield an entry equal to `failure_B`: the
merged entry keeps the oldest entry's `command` text, which differs here. -/
theorem rotate_merge_counterexample :
    rotate [runOldOk, runMidErr, runNewOk] ≠ [runMidErr] ∧
      rotate [runErrA, runErrB] ≠ [runErrB] := by
  decide

/-- Claim C3, amended: Collapsing a uniform-tag run `[success, failure,
success]` yields the single entry that carries the failure's result and
timestamp (and the shared tag), with the command text kept from the run's
oldest entry; likewise `[failure_A, failure_B]` collapses to failure B's
result and timestamp over the oldest entry's command text. -/
theorem rotate_merge_amended :
    (∀ a b c : CommandHistoryEntry, a.tag = b.tag → b.tag = c.tag →
      resultIsOk a.result = true → resultIsErr b.result = true →
      resultIsOk c.result = true →
      rotate [a, b, c] =
        [{ a with result := b.result, timestamp := b.timestamp }]) ∧
    (∀ a b : CommandHistoryEntry, a.tag = b.tag →
      resultIsErr a.result = true → resultIsErr b.result = true →
      rotate [a, b] =
        [{ a with result := b.result, timestamp := b.timestamp }]) := by
  constructor
  · intro a b c hab hbc ha hb hc
    obtain ⟨eb, heb⟩ := (resultIsErr_iff _).mp hb
    obtain ⟨oc, hoc⟩ := (resultIsOk_iff _).mp hc
    rw [rotate, rotateAux_cons_eq hab.symm, merge_in_of_err a heb,
      @rotateAux_cons_eq
        { a with result := .error eb, timestamp := b.timestamp } c []
        ((hab.trans hbc).symm),
      merge_in_of_ok_err hoc rfl]
    simp [rotateAux, heb]
  · intro a b hab ha hb
    obtain ⟨eb, heb⟩ := (resultIsErr_iff _).mp hb
    rw [rotate, rotateAux_cons_eq hab.symm, merge_in_of_err a heb]
    simp [rotateAux, heb]

/-- Witness for `rotate_merge_amended` at concrete runs. -/
theorem rotate_merge_amended_witness :
    rotate [runOldOk, runMidErr, runNewOk] =
      [{ runOldOk with result := runMidErr.result, timestamp := runMidErr.timestamp }] ∧
    rotate [runErrA, runErrB] =
      [{ runErrA with result := runErrB.result, timestamp := runErrB.timestamp }] :=
  ⟨rotate_merge_amended.1 runOldOk runMidErr runNewOk rfl rfl (by decide)
      (by decide) (by decide),
    rotate_merge_amended.2 runErrA runErrB rfl (by decide) (by decide)⟩

/-! ## Claim C5 -/

theorem secondLast_concat_two {α : Type} (zs : List α) (p a : α) :
    ((zs ++ [p]) ++ [a])[((zs ++ [p]) ++ [a]).length - 2]? = some p := by
  rw [List.append_assoc]
  have hlen : (zs ++ ([p] ++ [a])).length - 2 = zs.length := by
    simp
  rw [hlen, List.getElem?_append_right (Nat.le_refl _)]
  simp

theorem is_new_error_single (a : CommandHistoryEntry) :
    is_new_error [a] = resultIsErr a.result := by
  cases h : resultIsErr a.result <;> simp [is_new_error, h]

theorem is_new_error_concat_two (zs : List CommandHistoryEntry)
    (p a : CommandHistoryEntry) :
    is_new_error ((zs ++ [p]) ++ [a]) =
      (resultIsErr a.result && resultIsOk p.result) := by
  have hlast : ((zs ++ [p]) ++ [a]).getLast? = some a := List.getLast?_concat _
  have hlen : ((zs ++ [p]) ++ [a]).length > 1 := by simp
  rw [is_new_error, hlast]
  rw [secondLast_concat_two]
  cases h : resultIsErr a.result <;> simp [hlen, h]

theorem is_back_from_failure_single (a : CommandHistoryEntry) :
    is_back_from_failure [a] = false := by
  cases h : resultIsOk a.result <;> simp [is_back_from_failure, h]

theorem is_back_from_failure_concat_two (zs : List CommandHistoryEntry)
    (p a : CommandHistoryEntry) :
    is_back_from_failure ((zs ++ [p]) ++ [a]) =
      (resultIsOk a.result && resultIsErr p.result) := by
  have hlast : ((zs ++ [p]) ++ [a]).getLast? = some a := List.getLast?_concat _
  have hlen : ((zs ++ [p]) ++ [a]).length > 1 := by simp
  rw [is_back_from_failure, hlast]
  rw [secondLast_concat_two]
  cases h : resultIsOk a.result <;> simp [hlen, h]

/-- Claim C5: Post-rotation transition detection: `is_new_error` holds exactly
when the last entry is a failure and the second-to-last entry is absent or a
success (so it fires on a single-entry failing log); `is_back_from_failure`
holds exactly when the last entry is a success and an existing second-to-last
entry is a failure; both are false on the empty log. -/
theorem transition_detection (l : List CommandHistoryEntry) :
    (is_new_error l = true ↔
      ∃ last, l.getLast? = some last ∧ resultIsErr last.result = true ∧
        (l.dropLast.getLast? = none ∨
          ∃ prev, l.dropLast.getLast? = some prev ∧
            resultIsOk prev.result = true)) ∧
    (is_back_from_failure l = true ↔
      ∃ last prev, l.getLast? = some last ∧ resultIsOk last.result = true ∧
        l.dropLast.getLast? = some prev ∧ resultIsErr prev.result = true) ∧
    is_new_error ([] : List CommandHistoryEntry) = false ∧
    is_back_from_failure ([] : List CommandHistoryEntry) = false := by
  refine ⟨?_, ?_, by decide, by decide⟩
  · induction l using List.reverseRecOn with
    | nil => simp [is_new_error]
    | append_singleton ys a _ =>
      induction ys using List.reverseRecOn with
      | nil => simp [is_new_error_single]
      | append_singleton zs p _ =>
        rw [is_new_error_concat_two]
        simp [List.getLast?_concat, List.dropLast_concat, Bool.and_eq_true]
  · induction l using List.reverseRecOn with
    | nil => simp [is_back_from_failure]
    | append_singleton ys a _ =>
      induction ys using List.reverseRecOn with
      | nil => simp [is_back_from_failure_single]
      | append_singleton zs p _ =>
        rw [is_back_from_failure_concat_two]
        simp [List.getLast?_concat, List.dropLast_concat, Bool.and_eq_true]

/-! ## Claim C9 -/

theorem any_name_beq_eq_contains (results : List CommandResult) (key : String) :
    (results.any fun r => r.config.name == key) =
      ((results.map fun r => r.config.name).contains key) := by
  rw [Bool.eq_iff_iff]
  simp only [List.any_eq_true, List.contains_eq_any_beq, beq_iff_eq,
    List.mem_map]
  constructor
  · rintro ⟨r, hr, h⟩
    exact ⟨r.config.name, ⟨r, hr, rfl⟩, h.symm⟩
  · rintro ⟨n, ⟨r, hr, rfl⟩, h⟩
    exact ⟨r, hr, h.symm⟩

/-- Claim C9: Purging a history store against the current results keeps exactly
the per-probe histories whose name occurs among the results' configured
names, each with its entry log untouched; in particular a store `{A, B, C, D}`
purged against probes `{B, C}` yields exactly `{B, C}` with their logs
intact. -/
theorem purge_from_results_retains_configured :
    (∀ (h : History) (results : List CommandResult),
      (History.purge_from_results h results).commands =
        h.commands.filter fun c =>
          (results.map fun r => r.config.name).contains c.name) ∧
    History.purge_from_results { commands := [histA, histB, histC, histD] }
        [resB, resC] =
      { commands := [histB, histC] } := by
  constructor
  · intro h results
    rw [History.purge_from_results]
    exact List.filter_congr fun c _ => any_name_beq_eq_contains results c.name
  · decide

/-! ## Claim C10 -/

theorem summary_foldl (cs : List CommandHistoryS) (s : Summary) :
    (cs.foldl History.summaryStep s).nb_ok
        = s.nb_ok + cs.countP lastEntryIsOk ∧
      (cs.foldl History.summaryStep s).nb_err
        = s.nb_err + cs.countP lastEntryIsErr := by
  induction cs generalizing s with
  | nil => simp
  | cons c cs ih =>
    have hstep :
        (History.summaryStep s c).nb_ok
            = s.nb_ok + (if lastEntryIsOk c then 1 else 0) ∧
          (History.summaryStep s c).nb_err
            = s.nb_err + (if lastEntryIsErr c then 1 else 0) := by
      unfold History.summaryStep lastEntryIsOk lastEntryIsErr
      cases hl : c.entries.getLast? with
      | none => simp
      | some e =>
        cases he : e.result <;> simp [hl, he, resultIsOk, resultIsErr]
    rw [List.foldl_cons]
    obtain ⟨h1, h2⟩ := ih (History.summaryStep s c)
    rw [h1, h2, hstep.1, hstep.2, List.countP_cons, List.countP_cons]
    omega

theorem countP_lastOk_add_lastErr (cs : List CommandHistoryS) :
    cs.countP lastEntryIsOk + cs.countP lastEntryIsErr =
      cs.countP fun c => !c.entries.isEmpty := by
  induction cs with
  | nil => simp
  | cons c cs ih =>
    rw [List.countP_cons, List.countP_cons, List.countP_cons]
    have hc : (if lastEntryIsOk c then 1 else 0) +
        (if lastEntryIsErr c then 1 else 0) =
          (if !c.entries.isEmpty then 1 else 0) := by
      unfold lastEntryIsOk lastEntryIsErr
      cases hl : c.entries.getLast? with
      | none =>
        rw [List.getLast?_eq_none_iff] at hl
        simp [hl]
      | some e =>
        have hne : c.entries ≠ [] := by
          intro h
          rw [h] at hl
          exact Option.noConfusion hl
        cases he : e.result <;>
          simp [hl, he, resultIsOk, resultIsErr, List.isEmpty_iff, hne]
    omega

/-- Claim C10: `get_summary_from_latest` counts each probe with a non-empty log
exactly once, towards `nb_ok` when its last entry succeeded and towards
`nb_err` when it failed; probes with an empty log count towards neither, so
`nb_ok + nb_err` is the number of probes with at least one entry. -/
theorem get_summary_from_latest_counts (h : History) :
    (History.get_summary_from_latest h).nb_ok
        = h.commands.countP lastEntryIsOk ∧
      (History.get_summary_from_latest h).nb_err
        = h.commands.countP lastEntryIsErr ∧
      (History.get_summary_from_latest h).nb_ok
          + (History.get_summary_from_latest h).nb_err
        = h.commands.countP fun c => !c.entries.isEmpty := by
  obtain ⟨h1, h2⟩ :=
    summary_foldl h.commands { nb_ok := 0, nb_err := 0 }
  rw [History.get_summary_from_latest, h1, h2]
  simpa using countP_lastOk_add_lastErr h.commands

/-! ## Arithmetic bridges for the tagging thresholds -/

theorem numHours_lt_iff {d k : Int} (hk : 0 < k) :
    numHours d < k ↔ d < k * secPerHour := by
  unfold numHours secPerHour
  rcases le_or_lt 0 d with hd | hd
  · rw [Int.tdiv_eq_ediv hd (by norm_num)]
    rw [Int.ediv_lt_iff_lt_mul (by norm_num : (0 : Int) < 3600)]
  · have h1 : d.tdiv 3600 ≤ 0 := by
      have h2 : 0 ≤ (-d).tdiv 3600 :=
        Int.tdiv_nonneg (by omega) (by norm_num)
      rw [Int.neg_tdiv] at h2
      omega
    have h3 : 0 < k * 3600 := by positivity
    constructor <;> intro <;> omega

theorem lastDay_eq (latest : Int) :
    dateSubDelta (dateSubDelta (dateOf latest) (25 * secPerHour))
        (7 * secPerDay) =
      dateOf latest - 8 := by
  unfold dateSubDelta secPerHour secPerDay
  have h1 : Int.tdiv (25 * 3600) 86400 = 1 := by decide
  have h2 : Int.tdiv (7 * 86400) 86400 = 7 := by decide
  rw [h1, h2]
  omega

theorem dateOf_eq_ediv (t : Int) : dateOf t = t / secPerDay := by
  unfold dateOf secPerDay
  exact Int.fdiv_eq_ediv t (by norm_num)

theorem dateOf_mono {t t' : Int} (h : t ≤ t') : dateOf t ≤ dateOf t' := by
  rw [dateOf_eq_ediv, dateOf_eq_ediv]
  exact Int.ediv_le_ediv (by norm_num [secPerDay]) h

theorem dateOf_sub_days_le {t t' : Int} (k : Nat)
    (h : t - k * secPerDay ≤ t') : dateOf t - k ≤ dateOf t' := by
  have h1 : dateOf (t - k * secPerDay) ≤ dateOf t' := dateOf_mono h
  have h2 : dateOf (t - k * secPerDay) = dateOf t - k := by
    rw [dateOf_eq_ediv, dateOf_eq_ediv]
    have h3 : t - (k : Int) * secPerDay = t + (-(k : Int)) * secPerDay := by
      ring
    rw [h3, Int.add_mul_ediv_right t (-(k : Int)) (by norm_num [secPerDay])]
    ring
  omega

/-! ## The tagging pass, spec side -/

theorem retagEntry_eq_retagSpec (latest : Int) (e : CommandHistoryEntry) :
    retagEntry latest (dateOf latest - 8) e = retagSpec latest e := by
  have h1 : numHours (latest - e.timestamp) < 1 ↔
      latest - e.timestamp < secPerHour := numHours_lt_iff (by norm_num)
  have h3 := numHours_lt_iff (d := latest - e.timestamp) (k := 1 + 24)
    (by norm_num)
  have h2 : numHours (latest - e.timestamp) < 1 + 24 ↔
      latest - e.timestamp < 25 * secPerHour := by
    constructor
    · intro h
      have h4 := h3.mp h
      unfold secPerHour at h4 ⊢
      omega
    · intro h
      apply h3.mpr
      unfold secPerHour at h ⊢
      omega
  simp only [retagEntry, retagSpec, h1, h2]

/-- The central characterization: on any log whose last element is `last`,
`recreate_tags` is exactly the spec's retagging pass referenced to `last`'s
timestamp. -/
theorem recreate_tags_eq_filterMap (l : List CommandHistoryEntry)
    (last : CommandHistoryEntry) (hlast : l.getLast? = some last) :
    recreate_tags l = l.filterMap (retagSpec last.timestamp) := by
  unfold CommandHistory.recreate_tags
  rw [hlast]
  show l.filterMap
      (retagEntry last.timestamp
        (dateSubDelta (dateSubDelta (dateOf last.timestamp) (25 * secPerHour))
          (7 * secPerDay))) = _
  rw [lastDay_eq]
  exact List.filterMap_congr fun e _ => retagEntry_eq_retagSpec _ e

theorem retagSpec_timestamp_eq {latest : Int} {e e' : CommandHistoryEntry}
    (h : retagSpec latest e = some e') : e'.timestamp = e.timestamp := by
  unfold retagSpec at h
  split_ifs at h with h1 h2 h3
  · injection h with h'
    subst h'
    rfl
  · injection h with h'
    subst h'
    rfl
  · injection h with h'
    subst h'
    rfl

theorem retagSpec_some_date_ge {latest : Int} {e e' : CommandHistoryEntry}
    (h : retagSpec latest e = some e') :
    dateOf latest - 8 ≤ dateOf e'.timestamp := by
  unfold retagSpec at h
  split_ifs at h with h1 h2 h3
  · injection h with h'
    subst h'
    show dateOf latest - 8 ≤ dateOf e.timestamp
    have h4 : latest - 1 * secPerDay ≤ e.timestamp := by
      unfold secPerHour secPerDay at *
      omega
    have h5 := dateOf_sub_days_le 1 h4
    omega
  · injection h with h'
    subst h'
    show dateOf latest - 8 ≤ dateOf e.timestamp
    have h4 : latest - 2 * secPerDay ≤ e.timestamp := by
      unfold secPerHour secPerDay at *
      omega
    have h5 := dateOf_sub_days_le 2 h4
    omega
  · injection h with h'
    subst h'
    show dateOf latest - 8 ≤ dateOf e.timestamp
    omega

theorem mem_recreate_tags_date_ge (l : List CommandHistoryEntry)
    (last : CommandHistoryEntry) (hlast : l.getLast? = some last) :
    ∀ e' ∈ recreate_tags l, dateOf last.timestamp - 8 ≤ dateOf e'.timestamp := by
  rw [recreate_tags_eq_filterMap l last hlast]
  intro e' hmem
  rw [List.mem_filterMap] at hmem
  obtain ⟨e, _, hfe⟩ := hmem
  exact retagSpec_some_date_ge hfe

/-! ## Claim C1 -/

/-- Claim C1: On a non-empty log in non-decreasing timestamp order,
`recreate_tags` is the spec's retagging pass referenced to the last (most
recent) entry's timestamp: an entry of age under one hour keeps its identity
except for the tag `Minute(m)` with `m` its own minute-of-hour rounded down
to a multiple of 5, and an entry of age in `[1h, 25h)` gets `Hour(h)` with
`h` its own hour-of-day (`retagSpec` spells out exactly these rules). -/
theorem recreate_tags_minute_hour_tiers (l : List CommandHistoryEntry)
    (last : CommandHistoryEntry) (hlast : l.getLast? = some last)
    (_hsorted : l.Pairwise fun a b => a.timestamp ≤ b.timestamp) :
    recreate_tags l = l.filterMap (retagSpec last.timestamp) :=
  recreate_tags_eq_filterMap l last hlast

/-- Witness for `recreate_tags_minute_hour_tiers` on a concrete sorted log. -/
theorem recreate_tags_minute_hour_tiers_witness :
    recreate_tags [okEntryAt tsJan30, okEntryAt tsFeb7] =
      [okEntryAt tsJan30, okEntryAt tsFeb7].filterMap
        (retagSpec (okEntryAt tsFeb7).timestamp) :=
  recreate_tags_minute_hour_tiers _ _ (by decide) (by decide)

/-! ## Claim C2 -/

/-- Claim C2: On a non-empty sorted log, an entry of age at least 25 hours is
removed by `recreate_tags` exactly when its calendar date is earlier than the
latest entry's calendar date minus 25 hours minus 7 days — which chrono's
truncating date arithmetic makes an 8-day date cutoff (`lastDay_eq`) — and a
surviving entry of that age is retagged `Day(d)`, `d` its weekday index with
Monday = 0.  Concretely, with the newest entry at Wed 07 Feb 2024 19:49:43
GMT, the entry at Mon 29 Jan 2024 23:41:22 GMT is removed while the entry at
Tue 30 Jan 2024 01:41:22 GMT survives tagged `Day 1`. -/
theorem recreate_tags_day_tier_and_cutoff :
    (∀ (l : List CommandHistoryEntry) (last : CommandHistoryEntry),
      l.getLast? = some last →
      l.Pairwise (fun a b => a.timestamp ≤ b.timestamp) →
      ∀ e ∈ l, 25 * secPerHour ≤ last.timestamp - e.timestamp →
        ((dateOf e.timestamp < dateOf last.timestamp - 8 →
            ∀ e' ∈ recreate_tags l, e'.timestamp ≠ e.timestamp) ∧
          (dateOf last.timestamp - 8 ≤ dateOf e.timestamp →
            { e with tag := .Day (weekdayFromMonday (dateOf e.timestamp)) }
              ∈ recreate_tags l))) ∧
    recreate_tags [okEntryAt tsJan29, okEntryAt tsJan30, okEntryAt tsFeb7] =
      [{ okEntryAt tsJan30 with tag := .Day 1 },
        { okEntryAt tsFeb7 with tag := .Minute 45 }] := by
  constructor
  · intro l last hlast _hsorted e hel hage
    constructor
    · intro hdate e' he' heq
      have h1 := mem_recreate_tags_date_ge l last hlast e' he'
      rw [heq] at h1
      omega
    · intro hdate
      rw [recreate_tags_eq_filterMap l last hlast, List.mem_filterMap]
      refine ⟨e, hel, ?_⟩
      have c1 : ¬(last.timestamp - e.timestamp < secPerHour) := by
        unfold secPerHour at *
        omega
      have c2 : ¬(last.timestamp - e.timestamp < 25 * secPerHour) := by
        omega
      have c3 : ¬(dateOf e.timestamp < dateOf last.timestamp - 8) := by
        omega
      simp [retagSpec, c1, c2, c3]
  · decide

/-- Witness for the universally quantified part of
`recreate_tags_day_tier_and_cutoff` at the concrete 30 Jan 2024 entry. -/
theorem recreate_tags_day_tier_and_cutoff_witness :
    { okEntryAt tsJan30 with tag := TimeTag.Day 1 } ∈
      recreate_tags [okEntryAt tsJan29, okEntryAt tsJan30, okEntryAt tsFeb7] :=
  (recreate_tags_day_tier_and_cutoff.1
      [okEntryAt tsJan29, okEntryAt tsJan30, okEntryAt tsFeb7]
      (okEntryAt tsFeb7) (by decide) (by decide)
      (okEntryAt tsJan30) (by decide) (by decide)).2 (by decide)

/-! ## Claim C6 -/

theorem retagSpec_idem {latest : Int} {e e' : CommandHistoryEntry}
    (h : retagSpec latest e = some e') : retagSpec latest e' = some e' := by
  have hts : e'.timestamp = e.timestamp := retagSpec_timestamp_eq h
  unfold retagSpec at h
  split_ifs at h with h1 h2 h3
  · injection h with h'
    subst h'
    simp [retagSpec, h1]
  · injection h with h'
    subst h'
    simp [retagSpec, h1, h2]
  · injection h with h'
    subst h'
    simp [retagSpec, h1, h2, h3]

/-- Claim C6: Applying `recreate_tags` twice in a row is idempotent: the second
pass keeps every surviving entry with an unchanged tag. -/
theorem recreate_tags_idempotent (l : List CommandHistoryEntry) :
    recreate_tags (recreate_tags l) = recreate_tags l := by
  cases hl : l.getLast? with
  | none =>
    rw [List.getLast?_eq_none_iff] at hl
    subst hl
    rfl
  | some last =>
    have h1 := recreate_tags_eq_filterMap l last hl
    obtain ⟨ys, rfl⟩ := List.getLast?_eq_some_iff.mp hl
    have hlastSpec : retagSpec last.timestamp last =
        some { last with tag := .Minute (minuteOf last.timestamp / 5 * 5) } := by
      simp [retagSpec, secPerHour]
    have h2 : (recreate_tags (ys ++ [last])).getLast? =
        some { last with tag := .Minute (minuteOf last.timestamp / 5 * 5) } := by
      rw [h1, List.filterMap_append]
      simp [hlastSpec]
    have h3 := recreate_tags_eq_filterMap _ _ h2
    rw [h3, h1, List.filterMap_filterMap]
    apply List.filterMap_congr
    intro a _
    show (retagSpec last.timestamp a).bind (retagSpec last.timestamp)
        = retagSpec last.timestamp a
    cases heq : retagSpec last.timestamp a with
    | none => rfl
    | some a' =>
      rw [Option.some_bind]
      exact retagSpec_idem heq

/-! ## Claim C7 -/

theorem rotateAux_forall_ts (P : Int → Prop) (l : List CommandHistoryEntry)
    (acc : CommandHistoryEntry) (hacc : P acc.timestamp)
    (h : ∀ e ∈ l, P e.timestamp) :
    ∀ e' ∈ rotateAux acc l, P e'.timestamp := by
  induction l generalizing acc with
  | nil =>
    intro e' he'
    rw [rotateAux] at he'
    simp at he'
    subst he'
    exact hacc
  | cons e rest ih =>
    by_cases htag : e.tag = acc.tag
    · rw [rotateAux_cons_eq htag]
      apply ih
      · rcases merge_in_timestamp acc e with hm | hm <;> rw [hm]
        · exact hacc
        · exact h e (by simp)
      · exact fun x hx => h x (by simp [hx])
    · rw [rotateAux_cons_ne htag]
      intro e' he'
      rcases List.mem_cons.mp he' with rfl | he'
      · exact hacc
      · exact ih e (h e (by simp)) (fun x hx => h x (by simp [hx])) e' he'

theorem rotate_forall_ts (P : Int → Prop) (l : List CommandHistoryEntry)
    (h : ∀ e ∈ l, P e.timestamp) :
    ∀ e' ∈ rotate l, P e'.timestamp := by
  cases l with
  | nil => simp [rotate]
  | cons e rest =>
    exact rotateAux_forall_ts P rest e (h e (by simp))
      fun x hx => h x (by simp [hx])

/-- Claim C7, counterexample: An entry strictly older than
`latest − 25h − 7d` in raw time (Tue 30 Jan 2024 01:41:22 GMT against the
newest entry Wed 07 Feb 2024 19:49:43 GMT) nonetheless survives
`recreate_tags`, because removal compares calendar dates, not timestamps. -/
theorem retention_cutoff_counterexample :
    tsJan30 < tsFeb7 - (25 * secPerHour + 7 * secPerDay) ∧
      (recreate_tags [okEntryAt tsJan29, okEntryAt tsJan30, okEntryAt tsFeb7]).any
          (fun e => e.timestamp == tsJan30) = true := by
  decide

/-- Claim C7, amended: Every entry `recreate_tags` keeps — and hence every
entry of any subsequent `rotate` output — has a calendar date no earlier
than the last entry's date minus 8 days (the value of
`latest.date − 25h − 7d` under chrono's truncating date arithmetic); entries
dated before that cutoff are removed and never resurface. -/
theorem retention_cutoff_amended (l : List CommandHistoryEntry)
    (last : CommandHistoryEntry) (hlast : l.getLast? = some last) :
    (∀ e' ∈ recreate_tags l, dateOf last.timestamp - 8 ≤ dateOf e'.timestamp) ∧
      (∀ e' ∈ rotate (recreate_tags l),
        dateOf last.timestamp - 8 ≤ dateOf e'.timestamp) := by
  refine ⟨mem_recreate_tags_date_ge l last hlast, ?_⟩
  exact rotate_forall_ts (fun t => dateOf last.timestamp - 8 ≤ dateOf t) _
    (mem_recreate_tags_date_ge l last hlast)

/-- Witness for `retention_cutoff_amended` at a concrete log and survivor. -/
theorem retention_cutoff_amended_witness :
    dateOf (okEntryAt tsFeb7).timestamp - 8 ≤
      dateOf ({ okEntryAt tsFeb7 with tag := TimeTag.Minute 45 } :
        CommandHistoryEntry).timestamp :=
  (retention_cutoff_amended [okEntryAt tsJan29, okEntryAt tsFeb7] _
      (by decide)).1 _ (by decide)

/-! ## Claim C8 -/

theorem recreate_tags_pairwise (l : List CommandHistoryEntry)
    (h : l.Pairwise fun a b => a.timestamp ≤ b.timestamp) :
    (recreate_tags l).Pairwise fun a b => a.timestamp ≤ b.timestamp := by
  cases hl : l.getLast? with
  | none =>
    rw [List.getLast?_eq_none_iff] at hl
    subst hl
    exact h
  | some last =>
    rw [recreate_tags_eq_filterMap l last hl]
    refine List.Pairwise.filterMap _ ?_ h
    intro a a' hle b hb b' hb'
    have h1 : retagSpec last.timestamp a = some b := hb
    have h2 : retagSpec last.timestamp a' = some b' := hb'
    rw [retagSpec_timestamp_eq h1, retagSpec_timestamp_eq h2]
    exact hle

theorem rotateAux_pairwise (l : List CommandHistoryEntry)
    (acc : CommandHistoryEntry)
    (hsorted : l.Pairwise fun a b => a.timestamp ≤ b.timestamp)
    (hacc : ∀ e ∈ l, acc.timestamp ≤ e.timestamp) :
    ((rotateAux acc l).Pairwise fun a b => a.timestamp ≤ b.timestamp) ∧
      ∀ e' ∈ rotateAux acc l, acc.timestamp ≤ e'.timestamp := by
  induction l generalizing acc with
  | nil =>
    refine ⟨by simp [rotateAux], ?_⟩
    intro e' he'
    rw [rotateAux] at he'
    simp at he'
    subst he'
    exact le_refl _
  | cons e rest ih =>
    obtain ⟨hhead, htail⟩ := List.pairwise_cons.mp hsorted
    by_cases htag : e.tag = acc.tag
    · rw [rotateAux_cons_eq htag]
      have hm : ∀ x ∈ rest, (merge_in acc e).timestamp ≤ x.timestamp := by
        intro x hx
        rcases merge_in_timestamp acc e with h' | h' <;> rw [h']
        · exact hacc x (by simp [hx])
        · exact hhead x hx
      obtain ⟨hp, hall⟩ := ih (merge_in acc e) htail hm
      refine ⟨hp, ?_⟩
      intro e' he'
      have h1 : acc.timestamp ≤ (merge_in acc e).timestamp := by
        rcases merge_in_timestamp acc e with h' | h' <;> rw [h']
        exact hacc e (by simp)
      exact le_trans h1 (hall e' he')
    · rw [rotateAux_cons_ne htag]
      obtain ⟨hp, hall⟩ := ih e htail hhead
      have haccall : ∀ y ∈ rotateAux e rest, acc.timestamp ≤ y.timestamp :=
        fun y hy => le_trans (hacc e (by simp)) (hall y hy)
      refine ⟨List.pairwise_cons.mpr ⟨haccall, hp⟩, ?_⟩
      intro e' he'
      rcases List.mem_cons.mp he' with rfl | he'
      · exact le_refl _
      · exact haccall e' he'

theorem rotate_pairwise (l : List CommandHistoryEntry)
    (h : l.Pairwise fun a b => a.timestamp ≤ b.timestamp) :
    (rotate l).Pairwise fun a b => a.timestamp ≤ b.timestamp := by
  cases l with
  | nil => simp [rotate]
  | cons e rest =>
    obtain ⟨hhead, htail⟩ := List.pairwise_cons.mp h
    exact (rotateAux_pairwise rest e htail hhead).1

theorem pushEntry_mem_cases (name : String) (entry : CommandHistoryEntry)
    (cs : List CommandHistoryS) :
    ∀ c' ∈ History.pushEntry name entry cs,
      c' ∈ cs ∨
        (∃ c ∈ cs, c' = { c with entries := c.entries ++ [entry] }) ∨
        c' = { name := name, entries := [entry] } := by
  induction cs with
  | nil =>
    intro c' h
    rw [History.pushEntry] at h
    simp at h
    subst h
    right; right; rfl
  | cons c cs ih =>
    intro c' h
    rw [History.pushEntry] at h
    by_cases hn : c.name = name
    · rw [if_pos hn] at h
      rcases List.mem_cons.mp h with rfl | h'
      · exact Or.inr (Or.inl ⟨c, by simp, rfl⟩)
      · exact Or.inl (List.mem_cons.mpr (Or.inr h'))
    · rw [if_neg hn] at h
      rcases List.mem_cons.mp h with rfl | h'
      · exact Or.inl (by simp)
      · rcases ih c' h' with h'' | ⟨d, hd, rfl⟩ | h''
        · exact Or.inl (by simp [h''])
        · exact Or.inr (Or.inl ⟨d, by simp [hd], rfl⟩)
        · exact Or.inr (Or.inr h'')

theorem update_cons (now : Int) (h : History) (r : CommandResult)
    (rs : List CommandResult) :
    History.update now h (r :: rs) =
      History.update now
        { commands :=
            History.pushEntry r.config.name (History.entryOfResult now r)
              h.commands }
        rs :=
  rfl

theorem update_preserves_order (now : Int) (results : List CommandResult)
    (h : History)
    (hinv : ∀ c ∈ h.commands,
      (c.entries.Pairwise fun a b => a.timestamp ≤ b.timestamp) ∧
        ∀ e ∈ c.entries, e.timestamp ≤ now) :
    ∀ c' ∈ (History.update now h results).commands,
      (c'.entries.Pairwise fun a b => a.timestamp ≤ b.timestamp) ∧
        ∀ e ∈ c'.entries, e.timestamp ≤ now := by
  induction results generalizing h with
  | nil => exact hinv
  | cons r rs ih =>
    rw [update_cons]
    apply ih
    intro c' hc'
    rcases pushEntry_mem_cases _ _ _ c' hc' with hmem | ⟨c, hc, rfl⟩ | rfl
    · exact hinv c' hmem
    · obtain ⟨hp, hle⟩ := hinv c hc
      constructor
      · rw [List.pairwise_append]
        refine ⟨hp, by simp, ?_⟩
        intro a ha b hb
        rw [List.mem_singleton.mp hb]
        exact hle a ha
      · intro e he
        rcases List.mem_append.mp he with he' | he'
        · exact hle e he'
        · rw [List.mem_singleton.mp he']
          exact le_refl _
    · refine ⟨by simp, ?_⟩
      intro e he
      rw [List.mem_singleton.mp he]
      exact le_refl _

theorem pushEntry_length_sum (name : String) (entry : CommandHistoryEntry)
    (cs : List CommandHistoryS) :
    ((History.pushEntry name entry cs).map fun c => c.entries.length).sum =
      ((cs.map fun c => c.entries.length).sum) + 1 := by
  induction cs with
  | nil => simp [History.pushEntry]
  | cons c cs ih =>
    rw [History.pushEntry]
    by_cases hn : c.name = name
    · rw [if_pos hn]
      simp
      omega
    · rw [if_neg hn]
      simp at ih ⊢
      omega

theorem update_totalEntries (now : Int) (results : List CommandResult)
    (h : History) :
    totalEntries (History.update now h results) =
      totalEntries h + results.length := by
  induction results generalizing h with
  | nil => rfl
  | cons r rs ih =>
    rw [update_cons, ih]
    unfold totalEntries
    rw [pushEntry_length_sum]
    simp
    omega

/-- Claim C8: Non-decreasing timestamp order is an invariant: `recreate_tags`
and `rotate` preserve it on every probe's log (merging only ever adopts a
timestamp already in the run), `update` stamps every appended entry with the
current clock value `now`, appends exactly one entry per result, and — under
the monotonic-clock assumption that all stored entries are no newer than
`now` — leaves every probe's log sorted. -/
theorem timestamp_order_invariant :
    (∀ l : List CommandHistoryEntry,
      (l.Pairwise fun a b => a.timestamp ≤ b.timestamp) →
        (recreate_tags l).Pairwise fun a b => a.timestamp ≤ b.timestamp) ∧
    (∀ l : List CommandHistoryEntry,
      (l.Pairwise fun a b => a.timestamp ≤ b.timestamp) →
        (rotate l).Pairwise fun a b => a.timestamp ≤ b.timestamp) ∧
    (∀ (now : Int) (r : CommandResult),
      (History.entryOfResult now r).timestamp = now) ∧
    (∀ (now : Int) (h : History) (results : List CommandResult),
      (∀ c ∈ h.commands,
        (c.entries.Pairwise fun a b => a.timestamp ≤ b.timestamp) ∧
          ∀ e ∈ c.entries, e.timestamp ≤ now) →
      ∀ c' ∈ (History.update now h results).commands,
        (c'.entries.Pairwise fun a b => a.timestamp ≤ b.timestamp) ∧
          ∀ e ∈ c'.entries, e.timestamp ≤ now) ∧
    (∀ (now : Int) (h : History) (results : List CommandResult),
      totalEntries (History.update now h results) =
        totalEntries h + results.length) :=
  ⟨recreate_tags_pairwise, rotate_pairwise, fun _ _ => rfl,
    fun now h results hinv => update_preserves_order now results h hinv,
    fun now h results => update_totalEntries now results h⟩

/-- Witness for `timestamp_order_invariant` on a concrete log and store. -/
theorem timestamp_order_invariant_witness :
    ((rotate [okEntryAt 0, errEntryAt 5]).Pairwise
        fun a b => a.timestamp ≤ b.timestamp) ∧
      ((recreate_tags [okEntryAt 0, okEntryAt 5]).Pairwise
        fun a b => a.timestamp ≤ b.timestamp) ∧
      (({ histB with
            entries := histB.entries ++ [History.entryOfResult 100 resB] } :
          CommandHistoryS).entries.Pairwise
        fun a b => a.timestamp ≤ b.timestamp) :=
  ⟨timestamp_order_invariant.2.1 _ (by decide),
    timestamp_order_invariant.1 _ (by decide),
    (timestamp_order_invariant.2.2.2.1 100 { commands := [histB] } [resB]
        (by decide) _ (by decide)).1⟩

end Ronde
